import Mathlib

/-!
Verification of the DuckTape CDC/SCD2 pipeline library.

This file gives a shallow embedding, in Lean 4, of the parts of the
library that the checked properties talk about:

* the SCD2 in-place transform (`CDCTransforms.py`, class `SCD2`);
* the table-comparison delta engine (`CDCTransforms.py`, class `Comparison`);
* the surrogate-key generator (`CDCTransforms.py`, class `GenerateKey`);
* the step-graph executor (`Metadata.py`, class `Step`: `start` and
  `completed`);
* the `Query` placeholder validation (`Metadata.py`, class `Query`);
* the local loader (`Loaders.py`, class `DuckDBTable`).

SQL statements are modelled on lists: a table is a list of
rows, an `UPDATE ... SET c = CASE ... END` is a per-row function (a CASE
with no ELSE branch yields SQL NULL, modelled as `Option.none`), joins are
list binds with filters, `EXCEPT` is deduplication plus set difference.
-/

namespace DuckTape

/-! ## SCD2 transform (`SCD2.execute` in `CDCTransforms.py`)

The transform runs a single `UPDATE <cdc table> SET ...` with one CASE
expression per assigned column and no WHERE clause.  All CASE branches
test the *old* value of `__change_type` (SQL UPDATE evaluates every SET
right-hand side against the pre-update row).  A CASE expression without
an ELSE branch evaluates to NULL when no branch matches.

`D` is the type of the date values, `F` of the current-flag values.
A row of the CDC table is modelled by its four affected columns; the
payload columns are untouched by the statement and omitted.
-/

/-- One row of the CDC table, restricted to the columns the SCD2 `UPDATE`
statement touches.  Every column is nullable, hence `Option`. -/
structure Scd2Row (D F : Type) where
  startv : Option D
  endv : Option D
  flag : Option F
  ct : Option Char
  deriving Repr, DecidableEq

/-- The per-row effect of the SCD2 `UPDATE` statement, translated from
`SCD2.execute`.  Parameters `$1`..`$5` of the SQL are `startD` (resolved
start date), `endD` (resolved end date), `termD` (termination date),
`fset` / `funset` (current-flag values).  `hasFlag` tells whether
`current_flag_column` is configured: when it is not, the flag column is
absent from the SET list and keeps its value. -/
def scd2UpdateRow {D F : Type} (hasFlag : Bool) (startD endD termD : D)
    (fset funset : F) (r : Scd2Row D F) : Scd2Row D F :=
  { startv :=
      if r.ct = some 'I' then some (r.startv.getD startD)
      else if r.ct = some 'U' then some startD
      else if r.ct = some 'B' ∨ r.ct = some 'D' then r.startv
      else none,
    endv :=
      if r.ct = some 'I' ∨ r.ct = some 'U' then some termD
      else if r.ct = some 'B' ∨ r.ct = some 'D' then some endD
      else none,
    flag :=
      if hasFlag then
        (if r.ct = some 'I' ∨ r.ct = some 'U' then some fset
         else if r.ct = some 'B' ∨ r.ct = some 'D' then some funset
         else none)
      else r.flag,
    ct :=
      if r.ct = some 'I' ∨ r.ct = some 'U' then some 'I'
      else if r.ct = some 'B' ∨ r.ct = some 'D' then some 'U'
      else none }

/-- Resolution of the date parameters at the top of `SCD2.execute`:
`start_date` defaults to now, `end_date` defaults to the resolved start
date. -/
def scd2ResolveDates {D : Type} (now : D) (startArg endArg : Option D) : D × D :=
  let sd := startArg.getD now
  (sd, endArg.getD sd)

/-! ## Comparison delta engine (`Comparison.execute` in `CDCTransforms.py`)

`Comparison.execute` builds one INSERT INTO .. SELECT statement that is a
UNION ALL of up to four branches (I, U, optionally B, optionally D) over:

* `comparison_table` — the comparison dataset;
* `current_version`  — `comparison_table`, optionally filtered by
  `end_date_column = termination_date`, then reduced to one row per
  primary key (`row_number() over (partition by pk order by order desc) = 1`);
* `source`           — the source dataset;
* `changed`          — `select compare_cols from source EXCEPT
  select compare_cols from current_version`.

We model a source row by its primary-key tuple `pk : K`, its compared
payload `cmp : V` (the compare columns beyond the pk) and its ignored
payload `ign : W` (the `columns_to_ignore`).  A comparison row
additionally carries `extra : E` (columns only present in the comparison
table), the value of the `end_date_column` and of the `order_column`.
The pk columns are part of the compare columns (they are source columns
and not ignored in any sensible configuration), so the `changed`
projection is the pair `(pk, cmp)`.
-/

/-- A row of the source dataset, split into primary-key tuple, compared
payload and ignored payload. -/
structure SrcRow (K V W : Type) where
  pk : K
  cmp : V
  ign : W
  deriving Repr, DecidableEq

/-- A row of the comparison dataset: the source columns plus the
comparison-only (`extra`) columns, the end-date column value and the
order column value. -/
structure CompRow (K V W E T : Type) where
  pk : K
  cmp : V
  ign : W
  extra : E
  endv : Option T
  ordv : Nat
  deriving Repr, DecidableEq

/-- A row of the produced CDC table `<source>_tc`: all source columns,
the comparison-only columns (NULL on `I` rows) and `__change_type`. -/
structure CdcRow (K V W E : Type) where
  pk : K
  cmp : V
  ign : W
  extra : Option E
  ct : Char
  deriving Repr, DecidableEq

/-- Configuration of a `Comparison`, as resolved at `execute` time. -/
structure CompareCfg (T : Type) where
  beforeImage : Bool
  detectDeletes : Bool
  /-- Set to `some d` iff `end_date_column` is configured; `d` is then the bound
  `termination_date` parameter. -/
  endFilter : Option T
  deriving Repr

variable {K V W E T : Type}

/-- The `where "end_date_column" = ?` filter inside `current_version`
(SQL equality: a NULL end-date never matches). -/
def filterEnd [DecidableEq T] (cfg : CompareCfg T) (comp : List (CompRow K V W E T)) :
    List (CompRow K V W E T) :=
  match cfg.endFilter with
  | none => comp
  | some d => comp.filter (fun c => c.endv = some d)

/-- Models `row_number() over (partition by pk order by order_column desc)` kept
at row number 1: one row per distinct pk, the one with the greatest
`order_column` value (first in engine order on ties; without an
`order_column` all `ordv` are equal and the first row wins, which models
the engine-arbitrary choice). -/
def pickCurrentAux [DecidableEq K] :
    Nat → List (CompRow K V W E T) → List (CompRow K V W E T)
  | 0, _ => []
  | _, [] => []
  | fuel + 1, c :: rest =>
    ((rest.filter (fun r => r.pk = c.pk)).foldl
        (fun acc r => if acc.ordv < r.ordv then r else acc) c)
      :: pickCurrentAux fuel (rest.filter (fun r => ¬ r.pk = c.pk))

/-- See `pickCurrentAux`; the list length always suffices as fuel since
every step strictly shrinks the list. -/
def pickCurrent [DecidableEq K] (l : List (CompRow K V W E T)) :
    List (CompRow K V W E T) :=
  pickCurrentAux l.length l

/-- The `current_version` common table expression. -/
def currentVersion [DecidableEq K] [DecidableEq T] (cfg : CompareCfg T)
    (comp : List (CompRow K V W E T)) : List (CompRow K V W E T) :=
  pickCurrent (filterEnd cfg comp)

/-- The `changed` common table expression:
`select compare_cols from source EXCEPT select compare_cols from
current_version` — distinct projected source rows not present in the
projection of `current_version`. -/
def changedRows [DecidableEq K] [DecidableEq V] (source : List (SrcRow K V W))
    (cv : List (CompRow K V W E T)) : List (K × V) :=
  ((source.map (fun s => (s.pk, s.cmp))).dedup).filter
    (fun p => ¬ p ∈ cv.map (fun c => (c.pk, c.cmp)))

/-- The `U`-branch join `source as s join current_version as t on pk
join changed k on pk`, as the list of participating `(s, t)` pairs
(one per `(s, t, k)` triple). -/
def updateJoin [DecidableEq K] [DecidableEq V] (source : List (SrcRow K V W))
    (cv : List (CompRow K V W E T)) (changed : List (K × V)) :
    List (SrcRow K V W × CompRow K V W E T) :=
  source.flatMap (fun s =>
    (cv.filter (fun t => t.pk = s.pk)).flatMap (fun t =>
      (changed.filter (fun k => k.1 = s.pk)).map (fun _ => (s, t))))

/-- The `I` branch of the UNION ALL: source rows whose pk is not among
the `current_version` pks, with NULL for the comparison-only columns. -/
def iRows [DecidableEq K] (source : List (SrcRow K V W)) (cv : List (CompRow K V W E T)) :
    List (CdcRow K V W E) :=
  (source.filter (fun s => ¬ s.pk ∈ cv.map (fun c => c.pk))).map
    (fun s => CdcRow.mk s.pk s.cmp s.ign none 'I')

/-- The `U` branch: the update join projected from the source side,
`extra` taken from the comparison side. -/
def uRows (join : List (SrcRow K V W × CompRow K V W E T)) : List (CdcRow K V W E) :=
  join.map (fun p => CdcRow.mk p.1.pk p.1.cmp p.1.ign (some p.2.extra) 'U')

/-- The `B` branch: the same join projected from the comparison side. -/
def bRows (join : List (SrcRow K V W × CompRow K V W E T)) : List (CdcRow K V W E) :=
  join.map (fun p => CdcRow.mk p.2.pk p.2.cmp p.2.ign (some p.2.extra) 'B')

/-- The `D` branch: rows of the (unfiltered) `comparison_table` whose pk
is not among the source pks, projected from the comparison side. -/
def dRows [DecidableEq K] (source : List (SrcRow K V W)) (comp : List (CompRow K V W E T)) :
    List (CdcRow K V W E) :=
  (comp.filter (fun c => ¬ c.pk ∈ source.map (fun s => s.pk))).map
    (fun c => CdcRow.mk c.pk c.cmp c.ign (some c.extra) 'D')

/-- The rows `Comparison.execute` inserts into `<source>_tc`, in the
order of the UNION ALL branches (I, then U, then B when `before_image`,
then D when `detect_deletes`). -/
def comparisonExecute [DecidableEq K] [DecidableEq V] [DecidableEq T]
    (cfg : CompareCfg T) (source : List (SrcRow K V W))
    (comp : List (CompRow K V W E T)) : List (CdcRow K V W E) :=
  let cv := currentVersion cfg comp
  let join := updateJoin source cv (changedRows source cv)
  iRows source cv ++ uRows join ++ (if cfg.beforeImage then bRows join else []) ++
    (if cfg.detectDeletes then dRows source comp else [])

/-! ## Step graph executor (`Step.start` / `Step.completed` in `Metadata.py`)

Steps are numbered by `Nat`.  A graph gives each step its `inputs` and
`outputs` lists (the Python sets, in iteration order).  The run state
carries the two per-step flags and the order in which `execute` was
invoked.  `Step.start` and `Step.completed` recurse through the graph;
the recursion is bounded with explicit fuel (the Python code relies on
the flags for termination). -/

/-- A step graph: per-step input and output edge lists. -/
structure StepGraph where
  inputs : Nat → List Nat
  outputs : Nat → List Nat

/-- The mutable per-run state: the `executed` and `execute_lock` flags of
every step, and the trace of `execute` invocations in order. -/
structure StepState where
  executed : Nat → Bool
  lock : Nat → Bool
  trace : List Nat

/-- The fresh state: nothing executed, nothing locked. -/
def initState : StepState :=
  { executed := fun _ => false, lock := fun _ => false, trace := [] }

/-- Model of `Step.start`: set `execute_lock`; if not yet executed, start every
input that is neither executed nor locked, then invoke `execute` (here:
append to the trace) and set `executed`; finally start every output that
is neither executed nor locked. -/
def startStep (g : StepGraph) : Nat → Nat → StepState → StepState
  | 0, _, st => st
  | fuel + 1, n, st =>
    let st := { st with lock := fun m => if m = n then true else st.lock m }
    let st :=
      if st.executed n then st
      else
        let st := (g.inputs n).foldl
          (fun s i => if ¬ s.executed i ∧ ¬ s.lock i then startStep g fuel i s else s) st
        { st with trace := st.trace ++ [n],
                  executed := fun m => if m = n then true else st.executed m }
    (g.outputs n).foldl
      (fun s o => if ¬ s.executed o ∧ ¬ s.lock o then startStep g fuel o s else s) st

/-- Model of `Step.completed`: if this step is executed, recurse into every
executed input; clear both own flags; recurse into every executed
output. -/
def completedStep (g : StepGraph) : Nat → Nat → StepState → StepState
  | 0, _, st => st
  | fuel + 1, n, st =>
    let st :=
      if st.executed n then
        (g.inputs n).foldl
          (fun s i => if s.executed i then completedStep g fuel i s else s) st
      else st
    let st := { st with
      executed := fun m => if m = n then false else st.executed m,
      lock := fun m => if m = n then false else st.lock m }
    (g.outputs n).foldl
      (fun s o => if s.executed o then completedStep g fuel o s else s) st

/-- The counterexample graph for the executor ordering guarantee:
step 0 is an input of both step 1 and step 2, and step 1 is an input of
step 2 (a three-node DAG; edges are symmetric as in `add_input`). -/
def diamondGraph : StepGraph :=
  { inputs := fun n => if n = 1 then [0] else if n = 2 then [1, 0] else [],
    outputs := fun n => if n = 0 then [1, 2] else if n = 1 then [2] else [] }

/-- The two-node graph 0 → 1 for the `completed` reset counterexample. -/
def chainGraph : StepGraph :=
  { inputs := fun n => if n = 1 then [0] else [],
    outputs := fun n => if n = 0 then [1] else [] }

/-- The state after a run of `chainGraph` that failed at step 1: step 0
executed, step 1 did not (its `execute` raised after `start` locked
both). -/
def failedChainState : StepState :=
  { executed := fun n => n = 0, lock := fun _ => true, trace := [0] }

/-! ## `Query.__init__` placeholder validation (`Metadata.py`)

The constructor scans the SQL template for placeholders of the shape
`\x7bname\x7d`.  When an `inputs` list is given it builds
`keys = names of the inputs` and an (intended) list `not_found_keys` of
unresolved placeholders; the loop body however only ever calls
`keys.discard(parameter)` and never appends to `not_found_keys`, and the
error is raised only when `not_found_keys` is non-empty.  Without an
`inputs` list, any placeholder raises. -/

/-- Does `Query.__init__` raise?  `placeholders` are the placeholder
names found by the regex in the template, `inputs` the names of the
declared input datasets (`none` when no inputs are given).  Translated
from the source: with inputs present, `not_found_keys` stays empty, so
the raise condition is decided exactly as below. -/
def queryInitRaises (placeholders : List String) (inputs : Option (List String)) : Bool :=
  match inputs with
  | some _names =>
    -- the loop body is `if parameter not in keys: keys.discard(parameter)`;
    -- it never appends to `not_found_keys`, which stays `[]`
    let notFoundKeys : List String := []
    decide (0 < notFoundKeys.length)
  | none => decide (placeholders ≠ [])

/-! ## `GenerateKey.execute` (`CDCTransforms.py`)

The start value of the sequence is computed as:

    start_value = 0
    if isinstance(self.start_value, Table):
        ... max(surrogate_key_column) + 1, or 1 when the max is NULL

so an *integer* `start_value` argument is never read — the sequence is
created with `START 0` in that case. -/

/-- The `start_value` constructor argument: either an integer or a
target table, of which only the current `max(surrogate_key_column)`
matters here (`none` = NULL, i.e. empty table). -/
inductive StartValue where
  | int (n : Int)
  | table (maxKey : Option Int)
  deriving Repr, DecidableEq

/-- The start value `GenerateKey.execute` passes to
`create or replace sequence ... start <n>`, translated from the source. -/
def generateKeyStartValue (sv : StartValue) : Int :=
  let start : Int := 0
  match sv with
  | .table maxKey =>
    match maxKey with
    | none => 1
    | some m => m + 1
  | .int _ => start

/-- The sequence-driven key update: every row with `__change_type = 'I'`
gets the next sequence value (in row order); other rows keep their key.
Returns the updated rows and the next unused sequence value. -/
def generateKeyUpdate {K V W E : Type} (start : Int)
    (rows : List (CdcRow K V W E × Option Int)) :
    List (CdcRow K V W E × Option Int) × Int :=
  rows.foldl
    (fun acc rk =>
      if rk.1.ct = 'I' then (acc.1 ++ [(rk.1, some acc.2)], acc.2 + 1)
      else (acc.1 ++ [rk], acc.2))
    ([], start)

/-! ## Primary-key resolution of `Comparison` (`CDCTransforms.py`)

`__init__`: an empty `logical_pk_list` becomes `None`; when it is `None`
and the *source dataset's* `pk_list` attribute is set, that attribute is
taken.  `execute`: when `self.pk_list` is still `None`, if the
comparison dataset is a `Table` its `get_table_primary_key` is used
(an `elif` — the source is *not* consulted in that case), else if the
source is a `Table` its `get_table_primary_key` is used.  A remaining
`None` raises.  `Table.get_table_primary_key` returns the `pk_list`
attribute when set, else the catalog primary key when the catalog query
returns a non-empty row, else `None`. -/

/-- What a `Table` contributes to pk resolution: its `pk_list` attribute
and its catalog primary key (`none` = the catalog query returned no
row; `some []` = a row with no columns). -/
structure TablePkInfo where
  attrPk : Option (List String)
  catalogPk : Option (List String)
  deriving Repr, DecidableEq

/-- Translation of `Table.get_table_primary_key` from the source. -/
def getTablePrimaryKey (t : TablePkInfo) : Option (List String) :=
  match t.attrPk with
  | some pk => some pk
  | none =>
    match t.catalogPk with
    | none => none
    | some pks => if pks.isEmpty then none else some pks

/-- The primary key `Comparison` ends up using, combining the
constructor logic and the `execute` fallback; `none` means
`execute` raises the no-primary-key error.  `arg` is the
`logical_pk_list` argument, `sourceAttrPk` the source dataset's
`pk_list` attribute at construction, `compTable` is `some info` iff the
comparison dataset is a `Table`, `sourceTable` likewise for the source
(its `attrPk` must coincide with `sourceAttrPk` for a `Table` source). -/
def comparisonResolvePk (arg : Option (List String)) (sourceAttrPk : Option (List String))
    (compTable : Option TablePkInfo) (sourceTable : Option TablePkInfo) :
    Option (List String) :=
  let argN := match arg with
    | some [] => none
    | x => x
  let ctorPk := match argN with
    | some pk => some pk
    | none => sourceAttrPk
  match ctorPk with
  | some pk => some pk
  | none =>
    match compTable with
    | some c => getTablePrimaryKey c
    | none =>
      match sourceTable with
      | some s => getTablePrimaryKey s
      | none => none

/-- The resolution order the specification states: argument, then the
comparison table's primary key, then the source table's primary key.
Modelled from the spec for comparison with `comparisonResolvePk`. -/
def specResolvePk (arg : Option (List String))
    (compTable : Option TablePkInfo) (sourceTable : Option TablePkInfo) :
    Option (List String) :=
  match arg with
  | some pk => some pk
  | none =>
    match compTable.bind getTablePrimaryKey with
    | some pk => some pk
    | none => sourceTable.bind getTablePrimaryKey

/-! ## Local loader (`DuckDBTable.execute` in `Loaders.py`)

The insert column list is computed as

    cols = set(self.source.get_cols(duckdb))
    if CHANGE_TYPE not in self.get_cols(duckdb):
        cols.discard(CHANGE_TYPE)
    ...
    if self.generated_key_column is not None:
        ...
        cols.discard(self.generated_key_column)

i.e. it starts from the *source* columns only, keeps `__change_type`
exactly when the *target's column set* contains it, and removes the
generated key column when one is configured. -/

/-- The reserved change-type column name. -/
def changeTypeCol : String := "__change_type"

/-- The set of columns `DuckDBTable.execute` puts into its INSERT /
UPDATE column list, translated from the source. -/
def loaderInsertCols (sourceCols targetCols : Finset String)
    (generatedKeyColumn : Option String) : Finset String :=
  let cols := sourceCols
  let cols := if changeTypeCol ∈ targetCols then cols else cols.erase changeTypeCol
  match generatedKeyColumn with
  | some g => cols.erase g
  | none => cols

/-- The column set the specification states: the union of source and
target columns, with `__change_type` excluded unless the target is a
CDC table.  Modelled from the spec for comparison with
`loaderInsertCols`. -/
def specLoaderCols (sourceCols targetCols : Finset String) (targetIsCdc : Bool) :
    Finset String :=
  if targetIsCdc then sourceCols ∪ targetCols
  else (sourceCols ∪ targetCols).erase changeTypeCol

/-! ### Upsert path of the loader (non-CDC source, target with known pk)

With a non-CDC source and a primary key read from the target's catalog,
the loader runs a single `INSERT OR REPLACE INTO target SELECT ... FROM
source`: each source row replaces the target row with the same primary
key, or is appended.  A target with a primary-key constraint holds at
most one row per key; it is modelled as an association list with
pairwise-distinct keys. -/

/-- Upsert (`INSERT OR REPLACE`) of one row into a pk-constrained table: replace
the row with the same key in place, else append. -/
def insertOrReplaceRow {K V : Type} [DecidableEq K] :
    List (K × V) → K × V → List (K × V)
  | [], r => [r]
  | t :: ts, r => if t.1 = r.1 then r :: ts else t :: insertOrReplaceRow ts r

/-- The whole `INSERT OR REPLACE INTO target(cols) SELECT cols FROM
source` statement: every source row upserted in order. -/
def upsertRun {K V : Type} [DecidableEq K] (target source : List (K × V)) :
    List (K × V) :=
  source.foldl insertOrReplaceRow target

/-- The per-row effect of `UPDATE target SET <non-pk cols> FROM source s
WHERE pk match`: a target row matched by a source row takes that row's
non-key payload. -/
def updRow {K V : Type} [DecidableEq K] (source : List (K × V)) (t : K × V) : K × V :=
  match source.find? (fun s => s.1 = t.1) with
  | some s => (t.1, s.2)
  | none => t

/-- The logical-pk upsert path (`pk_list` given but not the catalog pk):
first `UPDATE target SET <non-pk cols> FROM source WHERE pk match`, then
`INSERT INTO target SELECT ... FROM source WHERE pk NOT IN (SELECT pk
FROM target)`. -/
def updateInsertRun {K V : Type} [DecidableEq K] (target source : List (K × V)) :
    List (K × V) :=
  let updated := target.map (updRow source)
  updated ++ source.filter (fun s => ¬ s.1 ∈ updated.map Prod.fst)

/-! ## Theorems -/

/-! ### Helper lemmas about `pickCurrent`, `changedRows` and `updateJoin` -/

/-- Counting a change type over a segment whose rows all carry the same
change type yields the segment length or zero. -/
theorem countP_ct_map {K V W E α : Type} (g : α → CdcRow K V W E) (l : List α)
    (c c' : Char) (hg : ∀ x, (g x).ct = c') :
    (l.map g).countP (fun r => r.ct = c) = if c' = c then (l.map g).length else 0 := by
  by_cases h : c' = c
  · subst h
    rw [if_pos rfl]
    refine List.countP_eq_length.mpr (fun a ha => ?_)
    rcases List.mem_map.mp ha with ⟨x, -, rfl⟩
    simp [hg]
  · rw [if_neg h]
    refine List.countP_eq_zero.mpr (fun a ha => ?_)
    rcases List.mem_map.mp ha with ⟨x, -, rfl⟩
    simpa [hg] using h

/-- Change-type count of the `I` segment. -/
theorem countP_iRows {K V W E T : Type} [DecidableEq K] (source : List (SrcRow K V W))
    (cv : List (CompRow K V W E T)) (c : Char) :
    (iRows (E := E) source cv).countP (fun r => r.ct = c)
      = if 'I' = c then (iRows (E := E) source cv).length else 0 := by
  simp only [iRows]
  exact countP_ct_map _ _ c 'I' (fun _ => rfl)

/-- Change-type count of the `U` segment. -/
theorem countP_uRows {K V W E T : Type}
    (join : List (SrcRow K V W × CompRow K V W E T)) (c : Char) :
    (uRows join).countP (fun r => r.ct = c)
      = if 'U' = c then join.length else 0 := by
  simp only [uRows]
  rw [countP_ct_map _ _ c 'U' (fun _ => rfl), List.length_map]

/-- Change-type count of the `B` segment. -/
theorem countP_bRows {K V W E T : Type}
    (join : List (SrcRow K V W × CompRow K V W E T)) (c : Char) :
    (bRows join).countP (fun r => r.ct = c)
      = if 'B' = c then join.length else 0 := by
  simp only [bRows]
  rw [countP_ct_map _ _ c 'B' (fun _ => rfl), List.length_map]

/-- Change-type count of the `D` segment. -/
theorem countP_dRows {K V W E T : Type} [DecidableEq K] (source : List (SrcRow K V W))
    (comp : List (CompRow K V W E T)) (c : Char) :
    (dRows (E := E) source comp).countP (fun r => r.ct = c)
      = if 'D' = c then (dRows (E := E) source comp).length else 0 := by
  simp only [dRows]
  exact countP_ct_map _ _ c 'D' (fun _ => rfl)

/-- Every `I`-segment row has change type `I`. -/
theorem ct_of_mem_iRows {K V W E T : Type} [DecidableEq K] {source : List (SrcRow K V W)}
    {cv : List (CompRow K V W E T)} {r : CdcRow K V W E} (h : r ∈ iRows source cv) :
    r.ct = 'I' := by
  simp only [iRows, List.mem_map] at h
  obtain ⟨x, -, rfl⟩ := h
  rfl

/-- Every `U`-segment row has change type `U` and the primary key of its
join pair's source side. -/
theorem mem_uRows_elim {K V W E T : Type}
    {join : List (SrcRow K V W × CompRow K V W E T)} {u : CdcRow K V W E}
    (h : u ∈ uRows join) : u.ct = 'U' ∧ ∃ st ∈ join, st.1.pk = u.pk := by
  simp only [uRows, List.mem_map] at h
  obtain ⟨st, hst, rfl⟩ := h
  exact ⟨rfl, st, hst, rfl⟩

/-- Every `B`-segment row has change type `B`. -/
theorem ct_of_mem_bRows {K V W E T : Type}
    {join : List (SrcRow K V W × CompRow K V W E T)} {r : CdcRow K V W E}
    (h : r ∈ bRows join) : r.ct = 'B' := by
  simp only [bRows, List.mem_map] at h
  obtain ⟨x, -, rfl⟩ := h
  rfl

/-- Every `D`-segment row has change type `D`. -/
theorem ct_of_mem_dRows {K V W E T : Type} [DecidableEq K] {source : List (SrcRow K V W)}
    {comp : List (CompRow K V W E T)} {r : CdcRow K V W E} (h : r ∈ dRows source comp) :
    r.ct = 'D' := by
  simp only [dRows, List.mem_map] at h
  obtain ⟨x, -, rfl⟩ := h
  rfl

/-- Filtering a mapped segment commutes to filtering the base list. -/
theorem length_filter_map {α β : Type} (g : α → β) (q : β → Bool) (l : List α) :
    ((l.map g).filter q).length = (l.filter (fun x => q (g x))).length := by
  induction l with
  | nil => rfl
  | cons x xs ih => by_cases h : q (g x) <;> simp [List.filter_cons, h, ih]

/-- A mapped segment with a change type other than `B` contributes
nothing to a `B`-filter. -/
theorem filter_bpred_map_eq_nil {K V W E α : Type} [DecidableEq K]
    (g : α → CdcRow K V W E) (l : List α) (c' : Char) (hg : ∀ x, (g x).ct = c')
    (hne : c' ≠ 'B') (p : K) :
    (l.map g).filter (fun b => b.ct = 'B' ∧ b.pk = p) = [] := by
  refine List.filter_eq_nil_iff.mpr (fun b hb => ?_)
  rcases List.mem_map.mp hb with ⟨x, -, rfl⟩
  simp only [decide_eq_true_eq, hg, not_and]
  exact fun hc => absurd hc hne

/-- The `B`-filter on the `B` segment counts the join pairs whose source
side has the filtered primary key. -/
theorem filter_bRows_length {K V W E T : Type} [DecidableEq K]
    (join : List (SrcRow K V W × CompRow K V W E T))
    (hpk : ∀ st ∈ join, st.2.pk = st.1.pk) (p : K) :
    ((bRows join).filter (fun b => b.ct = 'B' ∧ b.pk = p)).length
      = join.countP (fun st => st.1.pk = p) := by
  simp only [bRows]
  rw [length_filter_map, List.countP_eq_length_filter]
  congr 1
  refine List.filter_congr (fun st hst => ?_)
  simp [hpk st hst]

/-- The maximum-order fold used by `pickCurrent` picks one of its
candidates. -/
theorem foldl_maxOrd_mem {K V W E T : Type} (c : CompRow K V W E T)
    (l : List (CompRow K V W E T)) :
    (l.foldl (fun acc r => if acc.ordv < r.ordv then r else acc) c) ∈ c :: l := by
  induction l generalizing c with
  | nil => simp
  | cons x xs ih =>
    simp only [List.foldl_cons]
    by_cases hc : c.ordv < x.ordv
    · rw [if_pos hc]
      rcases List.mem_cons.mp (ih x) with h | h
      · rw [h]; simp
      · simp [h]
    · rw [if_neg hc]
      rcases List.mem_cons.mp (ih c) with h | h
      · rw [h]; simp
      · simp [h]

/-- The maximum-order fold preserves a common primary key. -/
theorem foldl_maxOrd_pk {K V W E T : Type} (p : K) (c : CompRow K V W E T)
    (l : List (CompRow K V W E T)) (hc : c.pk = p) (hl : ∀ r ∈ l, r.pk = p) :
    (l.foldl (fun acc r => if acc.ordv < r.ordv then r else acc) c).pk = p := by
  induction l generalizing c with
  | nil => simpa using hc
  | cons x xs ih =>
    simp only [List.foldl_cons]
    refine ih _ ?_ (fun r hr => hl r (List.mem_cons.mpr (Or.inr hr)))
    by_cases hcx : c.ordv < x.ordv <;>
      simp [hcx, hc, hl x (List.mem_cons.mpr (Or.inl rfl))]

/-- Every row `pickCurrentAux` keeps comes from its input. -/
theorem pickCurrentAux_subset {K V W E T : Type} [DecidableEq K] :
    ∀ (fuel : Nat) (l : List (CompRow K V W E T)), ∀ x ∈ pickCurrentAux fuel l, x ∈ l := by
  intro fuel
  induction fuel with
  | zero => intro l x hx; simp [pickCurrentAux] at hx
  | succ n ih =>
    intro l x hx
    cases l with
    | nil => simp [pickCurrentAux] at hx
    | cons c rest =>
      simp only [pickCurrentAux] at hx
      rcases List.mem_cons.mp hx with h | h
      · subst h
        rcases List.mem_cons.mp (foldl_maxOrd_mem c (rest.filter (fun r => r.pk = c.pk)))
          with h | h
        · simp [h]
        · exact List.mem_cons.mpr (Or.inr (List.mem_of_mem_filter h))
      · exact List.mem_cons.mpr (Or.inr (List.mem_of_mem_filter (ih _ x h)))

/-- Every row `pickCurrent` keeps comes from its input. -/
theorem pickCurrent_subset {K V W E T : Type} [DecidableEq K]
    (l : List (CompRow K V W E T)) : ∀ x ∈ pickCurrent l, x ∈ l :=
  pickCurrentAux_subset l.length l

/-- The function `pickCurrentAux` keeps at most one row per primary key. -/
theorem pickCurrentAux_pks_nodup {K V W E T : Type} [DecidableEq K] :
    ∀ (fuel : Nat) (l : List (CompRow K V W E T)),
      ((pickCurrentAux fuel l).map (fun c => c.pk)).Nodup := by
  intro fuel
  induction fuel with
  | zero => intro l; simp [pickCurrentAux]
  | succ n ih =>
    intro l
    cases l with
    | nil => simp [pickCurrentAux]
    | cons c rest =>
      simp only [pickCurrentAux, List.map_cons, List.nodup_cons]
      constructor
      · intro hmem
        rcases List.mem_map.mp hmem with ⟨x, hx, hxpk⟩
        have hxrest := pickCurrentAux_subset _ _ x hx
        have hne : ¬ x.pk = c.pk := by
          have := List.mem_filter.mp hxrest
          simpa using this.2
        have hbest : (((rest.filter (fun r => r.pk = c.pk)).foldl
            (fun acc r => if acc.ordv < r.ordv then r else acc) c)).pk = c.pk := by
          refine foldl_maxOrd_pk c.pk c _ rfl (fun r hr => ?_)
          have := List.mem_filter.mp hr
          simpa using this.2
        exact hne (hxpk.trans hbest)
      · exact ih _

/-- The function `pickCurrent` keeps at most one row per primary key: the kept pks
are pairwise distinct. -/
theorem pickCurrent_pks_nodup {K V W E T : Type} [DecidableEq K]
    (l : List (CompRow K V W E T)) : ((pickCurrent l).map (fun c => c.pk)).Nodup :=
  pickCurrentAux_pks_nodup l.length l

/-- When the source rows have pairwise-distinct primary keys, so do the
rows of the `changed` CTE (its key component). -/
theorem changedRows_keys_nodup {K V W E T : Type} [DecidableEq K] [DecidableEq V]
    (source : List (SrcRow K V W)) (cv : List (CompRow K V W E T))
    (hs : (source.map (fun s => s.pk)).Nodup) :
    ((changedRows source cv).map Prod.fst).Nodup := by
  have h1 : List.Sublist (changedRows source cv) (source.map (fun s => (s.pk, s.cmp))) :=
    (List.filter_sublist _).trans (List.dedup_sublist _)
  have h2 := h1.map Prod.fst
  refine hs.sublist ?_
  simpa [List.map_map, Function.comp] using h2

/-- A list whose image under `f` is duplicate-free has at most one
element in any fibre of `f`. -/
theorem length_filter_key_le_one {α β : Type} [DecidableEq β] (f : α → β) :
    ∀ (l : List α), ((l.map f).Nodup) → ∀ p, (l.filter (fun x => f x = p)).length ≤ 1 := by
  intro l
  induction l with
  | nil => intro _ p; simp
  | cons x xs ih =>
    intro h p
    simp only [List.map_cons, List.nodup_cons] at h
    by_cases hx : f x = p
    · have hxs : xs.filter (fun y => decide (f y = p)) = [] := by
        refine List.filter_eq_nil_iff.mpr (fun y hy => ?_)
        simp only [decide_eq_true_eq]
        intro hyp
        exact h.1 (List.mem_map.mpr ⟨y, hy, hyp.trans hx.symm⟩)
      simp [List.filter_cons, hx, hxs]
    · simpa [List.filter_cons, hx] using ih h.2 p

/-- Membership shape of the `U`/`B` join: a participating pair consists
of a source row and a current-version row with the same primary key. -/
theorem mem_updateJoin {K V W E T : Type} [DecidableEq K] [DecidableEq V]
    {source : List (SrcRow K V W)} {cv : List (CompRow K V W E T)}
    {changed : List (K × V)} {st : SrcRow K V W × CompRow K V W E T}
    (h : st ∈ updateJoin source cv changed) :
    st.1 ∈ source ∧ st.2 ∈ cv ∧ st.2.pk = st.1.pk := by
  rw [updateJoin] at h
  rcases List.mem_flatMap.mp h with ⟨s, hs, h2⟩
  rcases List.mem_flatMap.mp h2 with ⟨t, ht, h3⟩
  rcases List.mem_map.mp h3 with ⟨k, hk, hst⟩
  subst hst
  have ht' := List.mem_filter.mp ht
  refine ⟨hs, ht'.1, by simpa using ht'.2⟩

/-- Summing a constant over a list multiplies it by the length. -/
theorem sum_map_const_nat {α : Type} (l : List α) (m : Nat) :
    (l.map (fun _ => m)).sum = l.length * m := by
  induction l with
  | nil => simp
  | cons x xs ih => simp [ih, Nat.succ_mul, Nat.add_comm]

/-- With duplicate-free keys on all three inputs, the join backing the
`U` and `B` rows holds at most one pair per primary key. -/
theorem updateJoin_countP_le_one {K V W E T : Type} [DecidableEq K] [DecidableEq V]
    (cv : List (CompRow K V W E T)) (changed : List (K × V))
    (hcv : (cv.map (fun c => c.pk)).Nodup) (hch : (changed.map Prod.fst).Nodup) :
    ∀ (source : List (SrcRow K V W)), ((source.map (fun s => s.pk)).Nodup) → ∀ p,
      (updateJoin source cv changed).countP (fun st => st.1.pk = p) ≤ 1 := by
  intro source
  induction source with
  | nil => intro _ p; simp [updateJoin]
  | cons x rest ih =>
    intro h p
    simp only [List.map_cons, List.nodup_cons] at h
    have hrest := ih h.2
    simp only [updateJoin] at hrest
    rw [updateJoin, List.flatMap_cons, List.countP_append]
    by_cases hp : x.pk = p
    · have hrest0 : (rest.flatMap (fun s =>
          (cv.filter (fun t => t.pk = s.pk)).flatMap (fun t =>
            (changed.filter (fun k => k.1 = s.pk)).map (fun _ => (s, t))))).countP
          (fun st => st.1.pk = p) = 0 := by
        refine List.countP_eq_zero.mpr (fun st hst => ?_)
        have hmem : st.1 ∈ rest := (mem_updateJoin (by
          simpa [updateJoin] using hst)).1
        simp only [decide_eq_true_eq]
        intro hpk
        exact h.1 (List.mem_map.mpr ⟨st.1, hmem, hpk.trans hp.symm⟩)
      have hhead : ((cv.filter (fun t => t.pk = x.pk)).flatMap (fun t =>
          (changed.filter (fun k => k.1 = x.pk)).map (fun _ => (x, t)))).countP
            (fun st => st.1.pk = p) ≤ 1 := by
        have hc1 := length_filter_key_le_one (fun c => c.pk) cv hcv x.pk
        have hc2 := length_filter_key_le_one Prod.fst changed hch x.pk
        refine le_trans (List.countP_le_length _) ?_
        rw [List.length_flatMap]
        simp only [Function.comp_def]
        have hconst : ((cv.filter (fun t => t.pk = x.pk)).map (fun t =>
            ((changed.filter (fun k => k.1 = x.pk)).map (fun _ => (x, t))).length)).sum
            = (cv.filter (fun t => t.pk = x.pk)).length *
              (changed.filter (fun k => k.1 = x.pk)).length := by
          simp only [List.length_map]
          exact sum_map_const_nat _ _
        rw [hconst]
        calc (cv.filter (fun t => t.pk = x.pk)).length *
              (changed.filter (fun k => k.1 = x.pk)).length
            ≤ 1 * 1 := Nat.mul_le_mul hc1 hc2
          _ = 1 := by omega
      rw [hrest0]
      omega
    · have hhead0 : ((cv.filter (fun t => t.pk = x.pk)).flatMap (fun t =>
          (changed.filter (fun k => k.1 = x.pk)).map (fun _ => (x, t)))).countP
            (fun st => st.1.pk = p) = 0 := by
        refine List.countP_eq_zero.mpr (fun st hst => ?_)
        simp only [List.mem_flatMap, List.mem_map] at hst
        obtain ⟨t, -, -, -, hst⟩ := hst
        subst hst
        simpa using hp
      rw [hhead0]
      simpa using hrest p

/-- The change-type counts of the full Comparison output, segment by
segment. -/
theorem comparisonExecute_counts {K V W E T : Type}
    [DecidableEq K] [DecidableEq V] [DecidableEq T]
    (cfg : CompareCfg T) (source : List (SrcRow K V W)) (comp : List (CompRow K V W E T)) :
    (comparisonExecute cfg source comp).countP (fun r => r.ct = 'I')
        = (iRows (E := E) source (currentVersion cfg comp)).length ∧
    (comparisonExecute cfg source comp).countP (fun r => r.ct = 'U')
        = (updateJoin source (currentVersion cfg comp)
            (changedRows source (currentVersion cfg comp))).length ∧
    (comparisonExecute cfg source comp).countP (fun r => r.ct = 'B')
        = (if cfg.beforeImage then
            (updateJoin source (currentVersion cfg comp)
              (changedRows source (currentVersion cfg comp))).length else 0) ∧
    (comparisonExecute cfg source comp).countP (fun r => r.ct = 'D')
        = (if cfg.detectDeletes then (dRows (E := E) source comp).length else 0) ∧
    (comparisonExecute cfg source comp).length
        = (iRows (E := E) source (currentVersion cfg comp)).length
          + (updateJoin source (currentVersion cfg comp)
              (changedRows source (currentVersion cfg comp))).length
          + (if cfg.beforeImage then
              (updateJoin source (currentVersion cfg comp)
                (changedRows source (currentVersion cfg comp))).length else 0)
          + (if cfg.detectDeletes then (dRows (E := E) source comp).length else 0) := by
  obtain ⟨bi, dd, ef⟩ := cfg
  cases bi <;> cases dd <;> refine ⟨?_, ?_, ?_, ?_, ?_⟩
  all_goals
    simp [comparisonExecute, List.countP_append, List.length_append,
      countP_iRows, countP_uRows, countP_bRows, countP_dRows]
  all_goals try simp [uRows, bRows]
  all_goals omega

/-- C1: invariants of the Comparison output table.  For a run with a
resolved primary key (source rows carry pairwise-distinct pks): every
produced row has change type `I`, `U`, `B` or `D`; the number of `B`
rows equals the number of `U` rows when `before_image` is on and is zero
otherwise; the number of `D` rows is zero when `detect_deletes` is off;
the total row count is `|I| + |U| + [before_image]·|U| +
[detect_deletes]·|D|`; and with `before_image` on every `U` row has
exactly one `B` row with the same primary key. -/
theorem c1_comparison_invariants {K V W E T : Type}
    [DecidableEq K] [DecidableEq V] [DecidableEq T]
    (cfg : CompareCfg T) (source : List (SrcRow K V W)) (comp : List (CompRow K V W E T))
    (hs : (source.map (fun s => s.pk)).Nodup) :
    (∀ r ∈ comparisonExecute cfg source comp,
        r.ct = 'I' ∨ r.ct = 'U' ∨ r.ct = 'B' ∨ r.ct = 'D') ∧
    ((comparisonExecute cfg source comp).countP (fun r => r.ct = 'B')
      = if cfg.beforeImage then
          (comparisonExecute cfg source comp).countP (fun r => r.ct = 'U') else 0) ∧
    (cfg.detectDeletes = false →
      (comparisonExecute cfg source comp).countP (fun r => r.ct = 'D') = 0) ∧
    ((comparisonExecute cfg source comp).length
      = (comparisonExecute cfg source comp).countP (fun r => r.ct = 'I')
        + (comparisonExecute cfg source comp).countP (fun r => r.ct = 'U')
        + (if cfg.beforeImage then
            (comparisonExecute cfg source comp).countP (fun r => r.ct = 'U') else 0)
        + (if cfg.detectDeletes then
            (comparisonExecute cfg source comp).countP (fun r => r.ct = 'D') else 0)) ∧
    (cfg.beforeImage = true → ∀ u ∈ comparisonExecute cfg source comp, u.ct = 'U' →
      ((comparisonExecute cfg source comp).filter
        (fun b => b.ct = 'B' ∧ b.pk = u.pk)).length = 1) := by
  have hcv : ((currentVersion cfg comp).map (fun c => c.pk)).Nodup :=
    pickCurrent_pks_nodup _
  have hch : ((changedRows source (currentVersion cfg comp)).map Prod.fst).Nodup :=
    changedRows_keys_nodup _ _ hs
  have hj1 := updateJoin_countP_le_one _ _ hcv hch source hs
  have hjpk : ∀ st ∈ updateJoin source (currentVersion cfg comp)
      (changedRows source (currentVersion cfg comp)), st.2.pk = st.1.pk :=
    fun st h => (mem_updateJoin h).2.2
  obtain ⟨cI, cU, cB, cD, cLen⟩ := comparisonExecute_counts cfg source comp
  refine ⟨?_, ?_, ?_, ?_, ?_⟩
  · intro r hr
    simp only [comparisonExecute, List.mem_append] at hr
    rcases hr with ((h | h) | h) | h
    · exact Or.inl (ct_of_mem_iRows h)
    · exact Or.inr (Or.inl (mem_uRows_elim h).1)
    · cases hb : cfg.beforeImage <;> simp only [hb] at h
      · simp at h
      · exact Or.inr (Or.inr (Or.inl (ct_of_mem_bRows (by simpa using h))))
    · cases hd : cfg.detectDeletes <;> simp only [hd] at h
      · simp at h
      · exact Or.inr (Or.inr (Or.inr (ct_of_mem_dRows (by simpa using h))))
  · rw [cB, cU]
  · intro hdd
    rw [cD, hdd]
    simp
  · rw [cLen, cI, cU, cD]
    cases cfg.beforeImage <;> cases cfg.detectDeletes <;> all_goals (simp; try omega)
  · intro hb u hu huct
    simp only [comparisonExecute, List.mem_append] at hu
    have hust : ∃ st ∈ updateJoin source (currentVersion cfg comp)
        (changedRows source (currentVersion cfg comp)), st.1.pk = u.pk := by
      rcases hu with ((h | h) | h) | h
      · rw [ct_of_mem_iRows h] at huct
        exact absurd huct (by decide)
      · exact (mem_uRows_elim h).2
      · rw [hb] at h
        rw [ct_of_mem_bRows (by simpa using h)] at huct
        exact absurd huct (by decide)
      · cases hd : cfg.detectDeletes <;> simp only [hd] at h
        · simp at h
        · rw [ct_of_mem_dRows (by simpa using h)] at huct
          exact absurd huct (by decide)
    obtain ⟨st, hst, hstpk⟩ := hust
    have hsplit : (comparisonExecute cfg source comp).filter
        (fun b => b.ct = 'B' ∧ b.pk = u.pk)
        = ((iRows source (currentVersion cfg comp)).filter
            (fun b => b.ct = 'B' ∧ b.pk = u.pk))
          ++ ((uRows (updateJoin source (currentVersion cfg comp)
                (changedRows source (currentVersion cfg comp)))).filter
              (fun b => b.ct = 'B' ∧ b.pk = u.pk))
          ++ ((bRows (updateJoin source (currentVersion cfg comp)
                (changedRows source (currentVersion cfg comp)))).filter
              (fun b => b.ct = 'B' ∧ b.pk = u.pk))
          ++ ((if cfg.detectDeletes then dRows (E := E) source comp else []).filter
              (fun b => b.ct = 'B' ∧ b.pk = u.pk)) := by
      simp only [comparisonExecute, List.filter_append, hb, if_true]
    have hfI : (iRows (E := E) source (currentVersion cfg comp)).filter
        (fun b => b.ct = 'B' ∧ b.pk = u.pk) = [] := by
      simp only [iRows]
      exact filter_bpred_map_eq_nil _ _ 'I' (fun _ => rfl) (by decide) u.pk
    have hfU : (uRows (updateJoin source (currentVersion cfg comp)
        (changedRows source (currentVersion cfg comp)))).filter
        (fun b => b.ct = 'B' ∧ b.pk = u.pk) = [] := by
      simp only [uRows]
      exact filter_bpred_map_eq_nil _ _ 'U' (fun _ => rfl) (by decide) u.pk
    have hfD : (if cfg.detectDeletes then dRows (E := E) source comp else []).filter
        (fun b => b.ct = 'B' ∧ b.pk = u.pk) = [] := by
      cases hd : cfg.detectDeletes
      · simp
      · simp only [if_true]
        simp only [dRows]
        exact filter_bpred_map_eq_nil _ _ 'D' (fun _ => rfl) (by decide) u.pk
    rw [hsplit, hfI, hfU, hfD]
    simp only [List.nil_append, List.append_nil, List.length_append, List.length_nil]
    rw [filter_bRows_length _ hjpk u.pk]
    refine Nat.le_antisymm (hj1 u.pk) ?_
    have : 0 < (updateJoin source (currentVersion cfg comp)
        (changedRows source (currentVersion cfg comp))).countP
        (fun st => st.1.pk = u.pk) :=
      List.countP_pos_iff.mpr ⟨st, hst, by simpa using hstpk⟩
    omega

/-- C1 witness: the theorem applied to a concrete two-row source and a
two-row comparison table with one changed, one new and one deleted key;
the single `U` row (key 1) has exactly one matching `B` row. -/
theorem c1_comparison_invariants_witness :
    ((comparisonExecute (K := Nat) (V := Nat) (W := Nat) (E := Nat) (T := Nat)
        ⟨true, true, none⟩ [⟨1, 10, 0⟩, ⟨2, 20, 0⟩]
        [⟨1, 11, 0, 5, none, 0⟩, ⟨3, 30, 0, 6, none, 0⟩]).filter
      (fun b => b.ct = 'B' ∧ b.pk = 1)).length = 1 := by
  have h := c1_comparison_invariants (K := Nat) (V := Nat) (W := Nat) (E := Nat) (T := Nat)
    ⟨true, true, none⟩ [⟨1, 10, 0⟩, ⟨2, 20, 0⟩]
    [⟨1, 11, 0, 5, none, 0⟩, ⟨3, 30, 0, 6, none, 0⟩] (by decide)
  have hu := h.2.2.2.2 rfl ⟨1, 10, 0, some 5, 'U'⟩ (by decide) rfl
  simpa using hu

/-- C2: per-row semantics of `SCD2.execute`.  An incoming `I` row gets
`start = coalesce(existing start, start_date)`, `end = termination_date`,
the set flag (when configured) and outgoing change type `I`.  An
incoming `U` row gets `start = start_date` unconditionally,
`end = termination_date`, the set flag and outgoing `I`.  Incoming `B`
and `D` rows keep their start, get `end = end_date`, the unset flag and
outgoing `U`. -/
theorem c2_scd2_row_semantics {D F : Type} [DecidableEq D] [DecidableEq F]
    (hasFlag : Bool) (startD endD termD : D) (fset funset : F) (r : Scd2Row D F) :
    (r.ct = some 'I' →
      (scd2UpdateRow hasFlag startD endD termD fset funset r).startv
          = some (r.startv.getD startD) ∧
      (scd2UpdateRow hasFlag startD endD termD fset funset r).endv = some termD ∧
      (hasFlag = true →
        (scd2UpdateRow hasFlag startD endD termD fset funset r).flag = some fset) ∧
      (scd2UpdateRow hasFlag startD endD termD fset funset r).ct = some 'I') ∧
    (r.ct = some 'U' →
      (scd2UpdateRow hasFlag startD endD termD fset funset r).startv = some startD ∧
      (scd2UpdateRow hasFlag startD endD termD fset funset r).endv = some termD ∧
      (hasFlag = true →
        (scd2UpdateRow hasFlag startD endD termD fset funset r).flag = some fset) ∧
      (scd2UpdateRow hasFlag startD endD termD fset funset r).ct = some 'I') ∧
    (r.ct = some 'B' →
      (scd2UpdateRow hasFlag startD endD termD fset funset r).startv = r.startv ∧
      (scd2UpdateRow hasFlag startD endD termD fset funset r).endv = some endD ∧
      (hasFlag = true →
        (scd2UpdateRow hasFlag startD endD termD fset funset r).flag = some funset) ∧
      (scd2UpdateRow hasFlag startD endD termD fset funset r).ct = some 'U') ∧
    (r.ct = some 'D' →
      (scd2UpdateRow hasFlag startD endD termD fset funset r).startv = r.startv ∧
      (scd2UpdateRow hasFlag startD endD termD fset funset r).endv = some endD ∧
      (hasFlag = true →
        (scd2UpdateRow hasFlag startD endD termD fset funset r).flag = some funset) ∧
      (scd2UpdateRow hasFlag startD endD termD fset funset r).ct = some 'U') := by
  refine ⟨fun h => ⟨?_, ?_, fun hf => ?_, ?_⟩, fun h => ⟨?_, ?_, fun hf => ?_, ?_⟩,
    fun h => ⟨?_, ?_, fun hf => ?_, ?_⟩, fun h => ⟨?_, ?_, fun hf => ?_, ?_⟩⟩ <;>
    simp_all [scd2UpdateRow]

/-- C2 witness: the theorem applied to concrete `I` and `B` rows. -/
theorem c2_scd2_row_semantics_witness :
    (⟨none, none, none, some 'I'⟩ : Scd2Row Nat Nat).ct = some 'I' ∧
    (scd2UpdateRow true 5 6 9 1 0 (⟨none, none, none, some 'I'⟩ : Scd2Row Nat Nat)).endv
      = some 9 ∧
    (scd2UpdateRow true 5 6 9 1 0 (⟨some 3, none, none, some 'B'⟩ : Scd2Row Nat Nat)).startv
      = some 3 :=
  ⟨rfl,
   ((c2_scd2_row_semantics true 5 6 9 1 0 ⟨none, none, none, some 'I'⟩).1 rfl).2.1,
   (((c2_scd2_row_semantics true 5 6 9 1 0 ⟨some 3, none, none, some 'B'⟩).2.2.1) rfl).1⟩

/-- C10: the SCD2 `UPDATE` has no WHERE clause and its CASE expressions
have no ELSE branch, so a row whose change type is none of `I`, `U`,
`B`, `D` has its start date, end date, configured flag column and
`__change_type` all set to NULL. -/
theorem c10_scd2_unknown_change_type_nulled {D F : Type} [DecidableEq D] [DecidableEq F]
    (hasFlag : Bool) (startD endD termD : D) (fset funset : F) (r : Scd2Row D F)
    (h : ¬ (r.ct = some 'I' ∨ r.ct = some 'U' ∨ r.ct = some 'B' ∨ r.ct = some 'D')) :
    (scd2UpdateRow hasFlag startD endD termD fset funset r).startv = none ∧
    (scd2UpdateRow hasFlag startD endD termD fset funset r).endv = none ∧
    (hasFlag = true → (scd2UpdateRow hasFlag startD endD termD fset funset r).flag = none) ∧
    (scd2UpdateRow hasFlag startD endD termD fset funset r).ct = none := by
  push_neg at h
  obtain ⟨h1, h2, h3, h4⟩ := h
  refine ⟨?_, ?_, fun hf => ?_, ?_⟩ <;> simp_all [scd2UpdateRow]

/-- C10 witness: a concrete `A` (upsert) row is fully nulled. -/
theorem c10_scd2_unknown_change_type_nulled_witness :
    (scd2UpdateRow true 5 6 9 1 0 (⟨some 3, some 4, some 1, some 'A'⟩ : Scd2Row Nat Nat)).ct
      = none :=
  (c10_scd2_unknown_change_type_nulled true 5 6 9 1 0 ⟨some 3, some 4, some 1, some 'A'⟩
    (by decide)).2.2.2

/-- C4 (code bug): with a declared input list, `Query.__init__` never
raises, even when a placeholder resolves to no input — the loop that
should collect unresolved placeholders only mutates `keys` and leaves
`not_found_keys` empty.  In particular the template placeholder
`missing` with the single input `a` is accepted. -/
theorem c4_query_placeholder_not_validated :
    (∀ placeholders names, queryInitRaises placeholders (some names) = false) ∧
    queryInitRaises (String.mk ['m', 'i', 's', 's', 'i', 'n', 'g'] :: [])
      (some [String.mk ['a']]) = false ∧
    queryInitRaises [String.mk ['p']] none = true :=
  ⟨fun _ _ => rfl, rfl, by decide⟩

/-- C5 (code bug): `GenerateKey.execute` initialises the sequence start
to `0` and overwrites it only in the `isinstance(start_value, Table)`
branch, so an integer `start_value` argument is ignored and the sequence
is created with `START 0` instead of the argument; the table branch
computes `max + 1`, or `1` on a NULL max. -/
theorem c5_generate_key_ignores_int_start :
    generateKeyStartValue (StartValue.int 5) = 0 ∧ (0 : Int) ≠ 5 ∧
    generateKeyStartValue (StartValue.table (some 7)) = 8 ∧
    generateKeyStartValue (StartValue.table none) = 1 := by
  refine ⟨rfl, by decide, rfl, rfl⟩

/-- C3 (code bug): the step executor does not guarantee that all
transitive inputs of a step have executed before the step itself.  On
the three-step DAG 0 → 1, 0 → 2, 1 → 2, invoking `start` on step 1
executes step 2 before its direct input step 1: step 0 executes, its
output walk reaches step 2, and step 2's input check skips step 1
because step 1 is merely `execute_lock`ed, not executed.  The execution
trace is `[0, 2, 1]` although step 1 is an input of step 2. -/
theorem c3_start_violates_input_order :
    (startStep diamondGraph 10 1 initState).trace = [0, 2, 1] ∧
    1 ∈ diamondGraph.inputs 2 := by
  constructor
  · rfl
  · simp [diamondGraph]

/-- C8 (code bug): `completed()` invoked on a step that never executed
does not walk its inputs (the walk is guarded by `self.executed`), so
after a failed run the executed upstream steps keep `executed = true`
(and their `execute_lock`).  On the graph 0 → 1 with step 0 executed and
step 1 not (the run failed in step 1's `execute`), `completed()` on
step 1 clears only step 1's flags; step 0 retains both. -/
theorem c8_completed_does_not_reset_upstream :
    failedChainState.executed 0 = true ∧
    failedChainState.executed 1 = false ∧
    (completedStep chainGraph 5 1 failedChainState).executed 0 = true ∧
    (completedStep chainGraph 5 1 failedChainState).lock 0 = true ∧
    (completedStep chainGraph 5 1 failedChainState).executed 1 = false ∧
    (completedStep chainGraph 5 1 failedChainState).lock 1 = false := by
  refine ⟨by decide, by decide, rfl, rfl, rfl, rfl⟩

/-- C6 counterexample: the claimed resolution order (argument, then
comparison-table pk, then source-table pk) disagrees with the code.
With no argument, a source dataset whose `pk_list` attribute is `[a]`,
and a comparison `Table` whose catalog primary key is `[b]`, the
constructor already adopts the source attribute `[a]`, while the claimed
order would resolve to the comparison table's `[b]`. -/
theorem c6_counterexample :
    comparisonResolvePk none (some [String.mk ['a']])
        (some ⟨none, some [String.mk ['b']]⟩) none = some [String.mk ['a']] ∧
    specResolvePk none (some ⟨none, some [String.mk ['b']]⟩) none
        = some [String.mk ['b']] ∧
    some [String.mk ['a']] ≠ some [String.mk ['b']] := by
  refine ⟨rfl, rfl, by decide⟩

/-- C6 amended: the primary key of a `Comparison` is resolved in the
order (1) non-empty `logical_pk_list` argument, (2) the source
dataset's `pk_list` attribute at construction time, (3) the comparison
table's `get_table_primary_key` when the comparison is a `Table` — with
no further fallback to the source in that case, (4) the source table's
`get_table_primary_key` when the source is a `Table` and the comparison
is not; when all of these yield nothing, `execute` raises the
no-primary-key error (resolved pk `none`). -/
theorem c6_pk_resolution_order (arg sourceAttrPk : Option (List String))
    (compTable sourceTable : Option TablePkInfo) :
    (∀ pk, arg = some pk → pk ≠ [] →
      comparisonResolvePk arg sourceAttrPk compTable sourceTable = some pk) ∧
    ((arg = none ∨ arg = some []) → sourceAttrPk ≠ none →
      comparisonResolvePk arg sourceAttrPk compTable sourceTable = sourceAttrPk) ∧
    ((arg = none ∨ arg = some []) → sourceAttrPk = none → ∀ c, compTable = some c →
      comparisonResolvePk arg sourceAttrPk compTable sourceTable = getTablePrimaryKey c) ∧
    ((arg = none ∨ arg = some []) → sourceAttrPk = none → compTable = none →
      ∀ s, sourceTable = some s →
      comparisonResolvePk arg sourceAttrPk compTable sourceTable = getTablePrimaryKey s) ∧
    ((arg = none ∨ arg = some []) → sourceAttrPk = none → compTable = none →
      sourceTable = none →
      comparisonResolvePk arg sourceAttrPk compTable sourceTable = none) := by
  refine ⟨fun pk ha hne => ?_, fun ha hs => ?_, fun ha hs c hc => ?_,
    fun ha hs hc s hsrc => ?_, fun ha hs hc hsrc => ?_⟩
  · cases pk with
    | nil => exact absurd rfl hne
    | cons x xs => simp [comparisonResolvePk, ha]
  · rcases ha with ha | ha <;> subst ha <;>
      rcases hx : sourceAttrPk with _ | pk <;> simp_all [comparisonResolvePk]
  · rcases ha with ha | ha <;> subst ha <;> subst hs <;> subst hc <;>
      simp [comparisonResolvePk]
  · rcases ha with ha | ha <;> subst ha <;> subst hs <;> subst hc <;> subst hsrc <;>
      simp [comparisonResolvePk]
  · rcases ha with ha | ha <;> subst ha <;> subst hs <;> subst hc <;> subst hsrc <;>
      simp [comparisonResolvePk]

/-- C6 amended witness: the theorem applied at concrete configurations,
one per resolution stage. -/
theorem c6_pk_resolution_order_witness :
    comparisonResolvePk (some [String.mk ['k']]) none none none = some [String.mk ['k']] ∧
    comparisonResolvePk none (some [String.mk ['a']]) none none = some [String.mk ['a']] ∧
    comparisonResolvePk none none (some ⟨none, some [String.mk ['b']]⟩) none
      = some [String.mk ['b']] ∧
    comparisonResolvePk none none none (some ⟨none, some [String.mk ['c']]⟩)
      = some [String.mk ['c']] ∧
    comparisonResolvePk none none none none = none := by
  refine ⟨?_, ?_, ?_, ?_, ?_⟩
  · exact (c6_pk_resolution_order (some [String.mk ['k']]) none none none).1
      [String.mk ['k']] rfl (by decide)
  · exact (c6_pk_resolution_order none (some [String.mk ['a']]) none none).2.1
      (Or.inl rfl) (by decide)
  · exact (c6_pk_resolution_order none none (some ⟨none, some [String.mk ['b']]⟩) none).2.2.1
      (Or.inl rfl) rfl _ rfl
  · exact (c6_pk_resolution_order none none none
      (some ⟨none, some [String.mk ['c']]⟩)).2.2.2.1 (Or.inl rfl) rfl rfl _ rfl
  · exact (c6_pk_resolution_order none none none none).2.2.2.2 (Or.inl rfl) rfl rfl rfl

/-- C7 counterexample: the loader's insert column list is not the union
of source and target columns.  With source columns `[a]` and target
columns `[a, b]`, the code writes only `[a]`, while the claimed union is
`[a, b]`. -/
theorem c7_counterexample :
    loaderInsertCols {String.mk ['a']} {String.mk ['a'], String.mk ['b']} none
      = {String.mk ['a']} ∧
    specLoaderCols {String.mk ['a']} {String.mk ['a'], String.mk ['b']} false
      = {String.mk ['a'], String.mk ['b']} ∧
    ({String.mk ['a']} : Finset String) ≠ {String.mk ['a'], String.mk ['b']} := by
  refine ⟨by decide, by decide, by decide⟩

/-- C7 amended: the columns `DuckDBTable.execute` writes are exactly the
*source* dataset's columns, with `__change_type` kept exactly when the
target's column set contains it (not when the target's `is_cdc` flag is
set), and with the generated key column removed when one is
configured. -/
theorem c7_loader_insert_cols (s t : Finset String) (g : Option String) (c : String) :
    c ∈ loaderInsertCols s t g ↔
      c ∈ s ∧ (c = changeTypeCol → changeTypeCol ∈ t) ∧ ∀ gc, g = some gc → c ≠ gc := by
  cases g with
  | none =>
    by_cases ht : changeTypeCol ∈ t
    · simp [loaderInsertCols, ht, Finset.mem_erase]
      try tauto
    · simp [loaderInsertCols, ht, Finset.mem_erase]
      try tauto
  | some gc =>
    by_cases ht : changeTypeCol ∈ t
    · simp [loaderInsertCols, ht, Finset.mem_erase]
      try tauto
    · simp [loaderInsertCols, ht, Finset.mem_erase]
      try tauto

/-! ### Helper lemmas for the loader upsert paths -/

/-- After upserting a row, looking its key up finds exactly that row. -/
theorem find_insertOrReplaceRow_self {K V : Type} [DecidableEq K]
    (t : List (K × V)) (r : K × V) :
    (insertOrReplaceRow t r).find? (fun x => x.1 = r.1) = some r := by
  induction t with
  | nil => simp [insertOrReplaceRow]
  | cons a as ih =>
    by_cases h : a.1 = r.1 <;> simp [insertOrReplaceRow, h, ih]

/-- Upserting a row does not change lookups of other keys. -/
theorem find_insertOrReplaceRow_other {K V : Type} [DecidableEq K]
    (t : List (K × V)) (r : K × V) (k : K) (hk : ¬ k = r.1) :
    (insertOrReplaceRow t r).find? (fun x => x.1 = k)
      = t.find? (fun x => x.1 = k) := by
  induction t with
  | nil =>
    simp only [insertOrReplaceRow]
    have : ¬ r.1 = k := fun h => hk h.symm
    simp [this]
  | cons a as ih =>
    by_cases h : a.1 = r.1
    · have h1 : ¬ r.1 = k := fun hh => hk hh.symm
      have h2 : ¬ a.1 = k := fun hh => hk ((h ▸ hh : (r.1 = k)).symm)
      rw [show insertOrReplaceRow (a :: as) r = r :: as from by
        simp [insertOrReplaceRow, h]]
      rw [List.find?_cons_of_neg _ (by simpa using h1),
        List.find?_cons_of_neg _ (by simpa using h2)]
    · rw [show insertOrReplaceRow (a :: as) r = a :: insertOrReplaceRow as r from by
        simp [insertOrReplaceRow, h]]
      by_cases h2 : a.1 = k
      · rw [List.find?_cons_of_pos _ (by simpa using h2),
          List.find?_cons_of_pos _ (by simpa using h2)]
      · rw [List.find?_cons_of_neg _ (by simpa using h2),
          List.find?_cons_of_neg _ (by simpa using h2), ih]

/-- An upsert run leaves lookups of keys absent from the source
untouched. -/
theorem upsertRun_find_preserve {K V : Type} [DecidableEq K]
    (s : List (K × V)) (k : K) (hk : ¬ k ∈ s.map Prod.fst) :
    ∀ (t : List (K × V)),
      (upsertRun t s).find? (fun x => x.1 = k) = t.find? (fun x => x.1 = k) := by
  induction s with
  | nil => intro t; rfl
  | cons a rest ih =>
    intro t
    simp only [List.map_cons, List.mem_cons, not_or] at hk
    have : upsertRun t (a :: rest) = upsertRun (insertOrReplaceRow t a) rest := rfl
    rw [this, ih hk.2, find_insertOrReplaceRow_other _ _ _ hk.1]

/-- After an upsert run, every source key looks up its (unique) source
row. -/
theorem upsertRun_find_mem {K V : Type} [DecidableEq K]
    (s : List (K × V)) (hs : (s.map Prod.fst).Nodup) (r : K × V) (hr : r ∈ s) :
    ∀ (t : List (K × V)), (upsertRun t s).find? (fun x => x.1 = r.1) = some r := by
  induction s with
  | nil => exact absurd hr (by simp)
  | cons a rest ih =>
    intro t
    simp only [List.map_cons, List.nodup_cons] at hs
    have hstep : upsertRun t (a :: rest) = upsertRun (insertOrReplaceRow t a) rest := rfl
    rcases List.mem_cons.mp hr with h | h
    · subst h
      have hk : ¬ r.1 ∈ rest.map Prod.fst := hs.1
      rw [hstep, upsertRun_find_preserve rest r.1 hk,
        find_insertOrReplaceRow_self]
    · rw [hstep]
      exact ih hs.2 h _

/-- Upserting a row that is already present (as its key's first match)
is a no-op. -/
theorem insertOrReplaceRow_eq_self {K V : Type} [DecidableEq K]
    (t : List (K × V)) (r : K × V)
    (h : t.find? (fun x => x.1 = r.1) = some r) : insertOrReplaceRow t r = t := by
  induction t with
  | nil => simp at h
  | cons a as ih =>
    by_cases ha : a.1 = r.1
    · rw [List.find?_cons_of_pos _ (by simpa using ha)] at h
      simp only [insertOrReplaceRow, ha, if_pos]
      simpa using (Option.some.inj h).symm
    · rw [List.find?_cons_of_neg _ (by simpa using ha)] at h
      simp [insertOrReplaceRow, ha, ih h]

/-- An upsert run whose every source row is already present is a
no-op. -/
theorem upsertRun_fixed {K V : Type} [DecidableEq K]
    (s : List (K × V)) :
    ∀ (u : List (K × V)), (∀ r ∈ s, u.find? (fun x => x.1 = r.1) = some r) →
      upsertRun u s = u := by
  induction s with
  | nil => intro u _; rfl
  | cons a rest ih =>
    intro u hall
    have h1 : insertOrReplaceRow u a = u :=
      insertOrReplaceRow_eq_self u a (hall a (List.mem_cons_self a rest))
    have hstep : upsertRun u (a :: rest) = upsertRun (insertOrReplaceRow u a) rest := rfl
    rw [hstep, h1]
    exact ih u (fun r hr => hall r (List.mem_cons.mpr (Or.inr hr)))

/-- Keys surviving an upsert of one row are old keys or the new key. -/
theorem keys_insertOrReplaceRow_sub {K V : Type} [DecidableEq K]
    (t : List (K × V)) (r : K × V) :
    ∀ k ∈ (insertOrReplaceRow t r).map Prod.fst, k ∈ t.map Prod.fst ∨ k = r.1 := by
  induction t with
  | nil =>
    intro k hk
    exact Or.inr (List.mem_singleton.mp hk)
  | cons a as ih =>
    intro k hk
    by_cases h : a.1 = r.1
    · rw [show insertOrReplaceRow (a :: as) r = r :: as from by
        simp [insertOrReplaceRow, h]] at hk
      simp only [List.map_cons, List.mem_cons] at hk
      rcases hk with hk | hk
      · exact Or.inr hk
      · exact Or.inl (List.mem_cons.mpr (Or.inr hk))
    · rw [show insertOrReplaceRow (a :: as) r = a :: insertOrReplaceRow as r from by
        simp [insertOrReplaceRow, h]] at hk
      simp only [List.map_cons, List.mem_cons] at hk
      rcases hk with hk | hk
      · exact Or.inl (List.mem_cons.mpr (Or.inl hk))
      · rcases ih k hk with h2 | h2
        · exact Or.inl (List.mem_cons.mpr (Or.inr h2))
        · exact Or.inr h2

/-- Upserting one row into a pk-constrained table keeps the keys
pairwise distinct. -/
theorem nodup_insertOrReplaceRow {K V : Type} [DecidableEq K]
    (t : List (K × V)) (r : K × V) (h : (t.map Prod.fst).Nodup) :
    ((insertOrReplaceRow t r).map Prod.fst).Nodup := by
  induction t with
  | nil => simp [insertOrReplaceRow]
  | cons a as ih =>
    simp only [List.map_cons, List.nodup_cons] at h
    by_cases ha : a.1 = r.1
    · rw [show insertOrReplaceRow (a :: as) r = r :: as from by
        simp [insertOrReplaceRow, ha]]
      simp only [List.map_cons, List.nodup_cons]
      exact ⟨by rw [← ha]; exact h.1, h.2⟩
    · rw [show insertOrReplaceRow (a :: as) r = a :: insertOrReplaceRow as r from by
        simp [insertOrReplaceRow, ha]]
      simp only [List.map_cons, List.nodup_cons]
      refine ⟨fun hmem => ?_, ih h.2⟩
      rcases keys_insertOrReplaceRow_sub as r a.1 hmem with h2 | h2
      · exact h.1 h2
      · exact ha h2

/-- An upsert run into a pk-constrained table keeps the keys pairwise
distinct: no duplicate rows are created. -/
theorem nodup_upsertRun {K V : Type} [DecidableEq K]
    (s : List (K × V)) :
    ∀ (t : List (K × V)), (t.map Prod.fst).Nodup →
      ((upsertRun t s).map Prod.fst).Nodup := by
  induction s with
  | nil => intro t h; exact h
  | cons a rest ih =>
    intro t h
    have hstep : upsertRun t (a :: rest) = upsertRun (insertOrReplaceRow t a) rest := rfl
    rw [hstep]
    exact ih _ (nodup_insertOrReplaceRow t a h)

/-- The per-row update keeps the key. -/
theorem fst_updRow {K V : Type} [DecidableEq K] (s : List (K × V)) (t : K × V) :
    (updRow s t).1 = t.1 := by
  unfold updRow
  cases s.find? (fun x => x.1 = t.1) <;> rfl

/-- The per-row update is idempotent. -/
theorem updRow_idem {K V : Type} [DecidableEq K] (s : List (K × V)) (t : K × V) :
    updRow s (updRow s t) = updRow s t := by
  unfold updRow
  cases hf : s.find? (fun x => x.1 = t.1) with
  | none => simp [hf]
  | some x => simp [hf]

/-- In a source with pairwise-distinct keys, looking up a member row's
key finds that row. -/
theorem find_self_of_nodup {K V : Type} [DecidableEq K]
    (s : List (K × V)) (hs : (s.map Prod.fst).Nodup) (r : K × V) (hr : r ∈ s) :
    s.find? (fun x => x.1 = r.1) = some r := by
  induction s with
  | nil => exact absurd hr (by simp)
  | cons a rest ih =>
    simp only [List.map_cons, List.nodup_cons] at hs
    rcases List.mem_cons.mp hr with h | h
    · subst h
      exact List.find?_cons_of_pos _ (by simp)
    · have ha : ¬ a.1 = r.1 := by
        intro hh
        exact hs.1 (List.mem_map.mpr ⟨r, h, hh.symm⟩)
      rw [List.find?_cons_of_neg _ (by simpa using ha)]
      exact ih hs.2 h

/-- The per-row update fixes the rows of a duplicate-free source. -/
theorem updRow_mem_self {K V : Type} [DecidableEq K]
    (s : List (K × V)) (hs : (s.map Prod.fst).Nodup) (r : K × V) (hr : r ∈ s) :
    updRow s r = r := by
  unfold updRow
  rw [find_self_of_nodup s hs r hr]

/-- The update-then-insert path is idempotent on a duplicate-free
source. -/
theorem updateInsertRun_idem {K V : Type} [DecidableEq K]
    (target source : List (K × V)) (hs : (source.map Prod.fst).Nodup) :
    updateInsertRun (updateInsertRun target source) source
      = updateInsertRun target source := by
  have hkeys : ∀ (l : List (K × V)),
      (l.map (updRow source)).map Prod.fst = l.map Prod.fst := by
    intro l
    rw [List.map_map]
    exact List.map_congr_left (fun t _ => fst_updRow source t)
  have hupd : (updateInsertRun target source).map (updRow source)
      = updateInsertRun target source := by
    simp only [updateInsertRun, List.map_append, List.map_map]
    congr 1
    · exact List.map_congr_left (fun t _ => updRow_idem source t)
    · have heq : ∀ (l : List (K × V)), (∀ r ∈ l, updRow source r = r) →
          l.map (updRow source) = l := by
        intro l hl
        induction l with
        | nil => rfl
        | cons a rest ih2 =>
          simp only [List.map_cons]
          rw [hl a (List.mem_cons_self a rest),
            ih2 (fun r hr => hl r (List.mem_cons.mpr (Or.inr hr)))]
      exact heq _ (fun r hr => updRow_mem_self source hs r (List.mem_of_mem_filter hr))
  have hcover : ∀ r ∈ source, r.1 ∈ (updateInsertRun target source).map Prod.fst := by
    intro r hr
    simp only [updateInsertRun, List.map_append, List.mem_append, hkeys]
    by_cases h : r.1 ∈ target.map Prod.fst
    · exact Or.inl h
    · refine Or.inr (List.mem_map.mpr ⟨r, List.mem_filter.mpr ⟨hr, ?_⟩, rfl⟩)
      simpa [hkeys] using h
  have hfil : source.filter
      (fun s => ¬ s.1 ∈ (updateInsertRun target source).map Prod.fst) = [] := by
    refine List.filter_eq_nil_iff.mpr (fun r hr => ?_)
    simpa using hcover r hr
  have hmain : (updateInsertRun target source).map (updRow source)
      ++ source.filter (fun s =>
        ¬ s.1 ∈ ((updateInsertRun target source).map (updRow source)).map Prod.fst)
      = updateInsertRun target source := by
    simp only [hupd]
    rw [hfil, List.append_nil]
  exact hmain

/-- C9: running the local loader twice with identical non-CDC source
data against a target with a known primary key is idempotent.  The
second run reproduces the target exactly (hence inserts no duplicate
rows and leaves the row count unchanged), on both upsert paths — the
catalog-pk `INSERT OR REPLACE` path and the logical-pk
update-then-insert path — and an upsert run into a key-consistent
target keeps the keys pairwise distinct. -/
theorem c9_loader_upsert_idempotent {K V : Type} [DecidableEq K]
    (target source : List (K × V)) (hs : (source.map Prod.fst).Nodup) :
    upsertRun (upsertRun target source) source = upsertRun target source ∧
    (upsertRun (upsertRun target source) source).length
      = (upsertRun target source).length ∧
    ((target.map Prod.fst).Nodup → ((upsertRun target source).map Prod.fst).Nodup) ∧
    updateInsertRun (updateInsertRun target source) source
      = updateInsertRun target source := by
  have h1 : upsertRun (upsertRun target source) source = upsertRun target source :=
    upsertRun_fixed source (upsertRun target source)
      (fun r hr => upsertRun_find_mem source hs r hr target)
  exact ⟨h1, by rw [h1], fun ht => nodup_upsertRun source target ht,
    updateInsertRun_idem target source hs⟩

/-- C9 witness: the theorem applied to a one-row target and a two-row
source (one replaced key, one new key). -/
theorem c9_loader_upsert_idempotent_witness :
    upsertRun (upsertRun ([(1, 10)] : List (Nat × Nat)) [(1, 11), (2, 20)])
        [(1, 11), (2, 20)]
      = upsertRun ([(1, 10)] : List (Nat × Nat)) [(1, 11), (2, 20)] :=
  (c9_loader_upsert_idempotent [(1, 10)] [(1, 11), (2, 20)] (by decide)).1

end DuckTape
